import Mathlib

/-!
Verification of the SpendDAG building core (`spend_dag_building.rs`).

The embedding translates the three public operations of the file
`src/sn_client/src/audit/spend_dag_building.rs` — `spend_dag_build_from`,
`spend_dag_extend_until` and `spend_dag_continue_from_utxos` — into pure
Lean functions.  The collaborators those functions call (`SpendDag`,
`SignedSpend`, `Transaction`, the network store, the genesis constant)
live outside the sources at hand; their definitions below are modelled
from the specification and say so in their doc comments.

Modelling conventions:
- unique public keys and spend addresses are natural numbers; the pure
  derivation of an address from a key is modelled as the identity (the
  spec only requires it to be deterministic);
- a transaction hash is modelled as the transaction itself (the spec
  requires a deterministic collision-resistant digest, so keying by hash
  coincides with keying by value);
- Rust `BTreeSet` collections are modelled as sorted duplicate-free
  lists built by ordered insertion with an explicit comparator, since
  the iteration order of the set of fetched spends is observable in
  `spend_dag_extend_until` (it is zipped against the address list);
- the concurrent `join_all` of store fetches preserves issue order, so
  a generation batch is modelled as mapping the store over the address
  list; the completion order of the per-UTXO tasks of
  `spend_dag_continue_from_utxos` is an explicit `order` argument;
- `&mut SpendDag` arguments become state passing: the embedded
  functions return the final DAG together with the `WalletResult`.
-/

/-- Unique public key, modelled as a natural number. -/
abbrev PK := Nat

/-- Content address of a spend, modelled as a natural number. -/
abbrev SpendAddress := Nat

/-- Modelled from the spec: `address_of(pk)` is a pure deterministic
derivation of an address from a unique public key
(`SpendAddress::from_unique_pubkey` in the source); modelled as the
identity on naturals. -/
def from_unique_pubkey (pk : PK) : SpendAddress := pk

/-- Modelled from the spec: a transaction has inputs and outputs, each
referencing a unique public key. -/
structure Transaction where
  inputs : List PK
  outputs : List PK
deriving DecidableEq

/-- Modelled from the spec: `tx.hash()` is a deterministic
collision-resistant digest; modelled as the transaction itself, so that
hash equality coincides with value equality. -/
def Transaction.hash (tx : Transaction) : Transaction := tx

/-- Modelled from the spec: the content of a spend — the consumed
unique public key, the parent transaction that produced the key and the
spent transaction the spend authorizes. -/
structure Spend where
  unique_pubkey : PK
  parent_tx : Transaction
  spent_tx : Transaction
deriving DecidableEq

/-- Modelled from the spec: an authenticated spend record; the
signature is not modelled, byte-equality is structural equality. -/
structure SignedSpend where
  spend : Spend
deriving DecidableEq

/-- Comparator on naturals used to model `BTreeSet` ordering. -/
def cmpN (a b : Nat) : Ordering :=
  if a < b then .lt else if b < a then .gt else .eq

/-- Lexicographic comparator on lists of naturals. -/
def cmpListN : List Nat → List Nat → Ordering
  | [], [] => .eq
  | [], _ :: _ => .lt
  | _ :: _, [] => .gt
  | a :: as, b :: bs =>
    match cmpN a b with
    | .eq => cmpListN as bs
    | o => o

/-- Comparator on transactions, lexicographic on inputs then outputs,
modelling the derived `Ord` of the Rust transaction type. -/
def Transaction.cmp (a b : Transaction) : Ordering :=
  match cmpListN a.inputs b.inputs with
  | .eq => cmpListN a.outputs b.outputs
  | o => o

/-- Comparator on signed spends, lexicographic on the unique public key
then the two transactions, modelling the derived `Ord` of the Rust
spend type (which compares the key field first). -/
def SignedSpend.cmp (a b : SignedSpend) : Ordering :=
  match cmpN a.spend.unique_pubkey b.spend.unique_pubkey with
  | .eq =>
    match Transaction.cmp a.spend.parent_tx b.spend.parent_tx with
    | .eq => Transaction.cmp a.spend.spent_tx b.spend.spent_tx
    | o => o
  | o => o

theorem cmpN_eq_iff (a b : Nat) : cmpN a b = .eq ↔ a = b := by
  unfold cmpN
  split
  · constructor
    · intro h; cases h
    · intro h; omega
  · split
    · constructor
      · intro h; cases h
      · intro h; omega
    · constructor
      · intro _; omega
      · intro _; rfl

theorem cmpListN_eq_iff (a b : List Nat) : cmpListN a b = .eq ↔ a = b := by
  induction a generalizing b with
  | nil => cases b <;> simp [cmpListN]
  | cons x xs ih =>
    cases b with
    | nil => simp [cmpListN]
    | cons y ys =>
      simp only [cmpListN]
      cases h : cmpN x y with
      | lt =>
        constructor
        · intro hc; cases hc
        · intro hc
          injection hc with h1 h2
          subst h1
          rw [(cmpN_eq_iff x x).mpr rfl] at h
          cases h
      | eq =>
        rw [cmpN_eq_iff] at h
        subst h
        simp [ih]
      | gt =>
        constructor
        · intro hc; cases hc
        · intro hc
          injection hc with h1 h2
          subst h1
          rw [(cmpN_eq_iff x x).mpr rfl] at h
          cases h

theorem transactionCmp_eq_iff (a b : Transaction) : Transaction.cmp a b = .eq ↔ a = b := by
  unfold Transaction.cmp
  cases h : cmpListN a.inputs b.inputs with
  | lt =>
    constructor
    · intro hc; cases hc
    · rintro rfl
      rw [(cmpListN_eq_iff _ _).mpr rfl] at h
      cases h
  | eq =>
    rw [cmpListN_eq_iff] at h
    constructor
    · intro hc
      rw [cmpListN_eq_iff] at hc
      cases a; cases b
      simp_all
    · rintro rfl
      exact (cmpListN_eq_iff _ _).mpr rfl
  | gt =>
    constructor
    · intro hc; cases hc
    · rintro rfl
      rw [(cmpListN_eq_iff _ _).mpr rfl] at h
      cases h

theorem signedSpendCmp_eq_iff (a b : SignedSpend) : SignedSpend.cmp a b = .eq ↔ a = b := by
  unfold SignedSpend.cmp
  cases h : cmpN a.spend.unique_pubkey b.spend.unique_pubkey with
  | lt =>
    constructor
    · intro hc; cases hc
    · rintro rfl
      rw [(cmpN_eq_iff _ _).mpr rfl] at h
      cases h
  | eq =>
    rw [cmpN_eq_iff] at h
    cases h2 : Transaction.cmp a.spend.parent_tx b.spend.parent_tx with
    | lt =>
      constructor
      · intro hc; cases hc
      · rintro rfl
        rw [(transactionCmp_eq_iff _ _).mpr rfl] at h2
        cases h2
    | eq =>
      rw [transactionCmp_eq_iff] at h2
      constructor
      · intro hc
        rw [transactionCmp_eq_iff] at hc
        cases a with
        | mk sa =>
          cases b with
          | mk sb =>
            cases sa; cases sb
            simp_all
      · rintro rfl
        exact (transactionCmp_eq_iff _ _).mpr rfl
    | gt =>
      constructor
      · intro hc; cases hc
      · rintro rfl
        rw [(transactionCmp_eq_iff _ _).mpr rfl] at h2
        cases h2
  | gt =>
    constructor
    · intro hc; cases hc
    · rintro rfl
      rw [(cmpN_eq_iff _ _).mpr rfl] at h
      cases h

/-- Ordered insertion into a sorted duplicate-free list: the model of
inserting into a Rust `BTreeSet` (elements comparing equal are kept
once). -/
def btreeInsert {α : Type} (cmp : α → α → Ordering) (x : α) : List α → List α
  | [] => [x]
  | y :: ys =>
    match cmp x y with
    | .lt => x :: y :: ys
    | .eq => y :: ys
    | .gt => y :: btreeInsert cmp x ys

/-- Collect a list into a `BTreeSet` model: fold ordered insertions. -/
def btreeOfList {α : Type} (cmp : α → α → Ordering) (xs : List α) : List α :=
  xs.foldl (fun acc x => btreeInsert cmp x acc) []

theorem btreeInsert_mem_iff {α : Type} (cmp : α → α → Ordering)
    (hcmp : ∀ a b : α, cmp a b = .eq ↔ a = b) (x z : α) (l : List α) :
    z ∈ btreeInsert cmp x l ↔ z = x ∨ z ∈ l := by
  induction l with
  | nil => simp [btreeInsert]
  | cons y ys ih =>
    simp only [btreeInsert]
    rcases h : cmp x y with hlt | heq | hgt
    · simp [List.mem_cons]
      try tauto
    · rw [hcmp] at h
      subst h
      simp [List.mem_cons]
      try tauto
    · simp [List.mem_cons, ih]
      try tauto

theorem btreeOfList_mem_iff {α : Type} (cmp : α → α → Ordering)
    (hcmp : ∀ a b : α, cmp a b = .eq ↔ a = b) (xs : List α) (z : α) :
    z ∈ btreeOfList cmp xs ↔ z ∈ xs := by
  have aux : ∀ (xs acc : List α),
      z ∈ xs.foldl (fun acc x => btreeInsert cmp x acc) acc ↔ z ∈ acc ∨ z ∈ xs := by
    intro xs
    induction xs with
    | nil => intro acc; simp
    | cons x rest ih =>
      intro acc
      simp only [List.foldl_cons, ih, btreeInsert_mem_iff cmp hcmp, List.mem_cons]
      tauto
  unfold btreeOfList
  rw [aux]
  simp

/-- Modelled from the spec: the result of a store `get` — the spend, a
`Missing` report (the address is unspent), or a transient error
(network, timeout, peer). -/
inductive GetResult where
  | ok (s : SignedSpend)
  | missing
  | otherErr
deriving DecidableEq

/-- True when the result carries a spend. -/
def GetResult.isOk : GetResult → Bool
  | .ok _ => true
  | _ => false

/-- Extract the spend from an ok result. -/
def GetResult.toOk : GetResult → Option SignedSpend
  | .ok s => some s
  | _ => none

/-- Modelled from the spec: the remote content-addressed spend store,
a finite table of responses; addresses absent from the table report
`Missing` (unspent). -/
structure Store where
  entries : List (SpendAddress × GetResult)
deriving DecidableEq

/-- Look an address up in the store table; absent means `Missing`. -/
def lookupEntry : List (SpendAddress × GetResult) → SpendAddress → GetResult
  | [], _ => .missing
  | p :: rest, a => if p.1 = a then p.2 else lookupEntry rest a

/-- Modelled from the spec: `get_spend_from_network` — fetch a signed
spend by address, reporting `Missing` or a transient error. -/
def Store.get (st : Store) (a : SpendAddress) : GetResult :=
  lookupEntry st.entries a

theorem lookupEntry_ok_mem (l : List (SpendAddress × GetResult)) (a : SpendAddress)
    (s : SignedSpend) (h : lookupEntry l a = .ok s) : (a, GetResult.ok s) ∈ l := by
  induction l with
  | nil => cases h
  | cons p rest ih =>
    cases p with
    | mk pa pr =>
      simp only [lookupEntry] at h
      split at h
      · rename_i heq
        subst heq
        rw [← h]
        exact List.mem_cons_self _ _
      · exact List.mem_cons_of_mem _ (ih h)

/-- The two error kinds raised by the DAG building code. -/
inductive WalletError where
  | FailedToGetSpend
  | CouldNotVerifyTransfer
deriving DecidableEq

/-- Result type of the DAG building operations. -/
inductive WalletResult (α : Type) where
  | ok (val : α)
  | error (e : WalletError)
deriving DecidableEq

/-- Modelled from the spec: a DAG entry is either a single canonical
spend or a double-spend marker preserving every observed spend. -/
inductive DagEntry where
  | single (s : SignedSpend)
  | double (l : List SignedSpend)
deriving DecidableEq

/-- The spends recorded in an entry. -/
def DagEntry.spends : DagEntry → List SignedSpend
  | .single s => [s]
  | .double l => l

/-- Modelled from the spec: the SpendDag — a mapping from addresses to
entries, represented as an association list.  The designated-root
bookkeeping is omitted: no operation of the building code observes
it. -/
structure SpendDag where
  entries : List (SpendAddress × DagEntry)
deriving DecidableEq

/-- Association-list lookup for the DAG. -/
def dagLookup : List (SpendAddress × DagEntry) → SpendAddress → Option DagEntry
  | [], _ => none
  | p :: rest, a => if p.1 = a then some p.2 else dagLookup rest a

/-- Association-list update for the DAG (append when absent). -/
def dagSet : List (SpendAddress × DagEntry) → SpendAddress → DagEntry → List (SpendAddress × DagEntry)
  | [], a, e => [(a, e)]
  | p :: rest, a, e => if p.1 = a then (a, e) :: rest else p :: dagSet rest a e

/-- Modelled from the spec: `SpendDag::new()` — the empty DAG. -/
def SpendDag.new : SpendDag := ⟨[]⟩

/-- Lookup of the entry at an address. -/
def SpendDag.find (d : SpendDag) (a : SpendAddress) : Option DagEntry :=
  dagLookup d.entries a

/-- Modelled from the spec: `insert(addr, spend)` — unconditional
record at the address; a second, non-equal spend demotes the entry to a
double-spend marker preserving every observed spend. -/
def SpendDag.insert (d : SpendDag) (a : SpendAddress) (s : SignedSpend) : SpendDag :=
  match dagLookup d.entries a with
  | none => ⟨dagSet d.entries a (.single s)⟩
  | some (.single s0) =>
    if s0 = s then d else ⟨dagSet d.entries a (.double [s0, s])⟩
  | some (.double l) =>
    if s ∈ l then d else ⟨dagSet d.entries a (.double (l ++ [s]))⟩

/-- Modelled from the spec: `check_and_insert(addr, spend)` — record
the spend and report whether it was new to the address (`false` exactly
when a byte-equal record was already stored there); the source wraps
the boolean in a `Result` whose error path the model has no way to
take. -/
def SpendDag.check_and_insert (d : SpendDag) (a : SpendAddress) (s : SignedSpend) :
    Bool × SpendDag :=
  let present :=
    match dagLookup d.entries a with
    | none => false
    | some e => decide (s ∈ e.spends)
  (!present, d.insert a s)

/-- Whether the DAG records the spend at the address (as the single
spend or inside a double-spend marker). -/
def SpendDag.containsAt (d : SpendDag) (a : SpendAddress) (s : SignedSpend) : Bool :=
  match dagLookup d.entries a with
  | none => false
  | some e => decide (s ∈ e.spends)

/-- Whether the DAG has any entry at the address. -/
def SpendDag.hasAddr (d : SpendDag) (a : SpendAddress) : Bool :=
  (dagLookup d.entries a).isSome

/-- Modelled from the spec: `merge(other)` — union of entries, with the
insert rule (and hence possible double-spend markers) on clashing
addresses. -/
def SpendDag.merge (d other : SpendDag) : SpendDag :=
  other.entries.foldl
    (fun acc p => p.2.spends.foldl (fun acc2 s => acc2.insert p.1 s) acc) d

/-- Modelled from the spec: `get_utxos()` — the output-key addresses
referenced by spent transactions of contained spends, minus the
addresses already contained. -/
def SpendDag.get_utxos (d : SpendDag) : List SpendAddress :=
  let outs := d.entries.flatMap
    (fun p => p.2.spends.flatMap
      (fun s => s.spend.spent_tx.outputs.map from_unique_pubkey))
  outs.dedup.filter (fun a => dagLookup d.entries a = none)

theorem dagLookup_set (l : List (SpendAddress × DagEntry)) (a x : SpendAddress) (e : DagEntry) :
    dagLookup (dagSet l a e) x = if x = a then some e else dagLookup l x := by
  induction l with
  | nil =>
    simp only [dagSet, dagLookup]
    by_cases h : x = a
    · subst h
      simp
    · rw [if_neg (fun hh => h hh.symm), if_neg h]
  | cons p rest ih =>
    cases p with
    | mk pa pe =>
      simp only [dagSet]
      by_cases hp : pa = a
      · subst hp
        rw [if_pos rfl]
        simp only [dagLookup]
        by_cases hx : x = pa
        · subst hx
          simp
        · rw [if_neg (fun hh => hx hh.symm), if_neg hx, if_neg (fun hh => hx hh.symm)]
      · rw [if_neg hp]
        simp only [dagLookup, ih]
        by_cases hpx : pa = x
        · rw [if_pos hpx, if_pos hpx]
          subst hpx
          rw [if_neg (fun hh => hp hh)]
        · rw [if_neg hpx, if_neg hpx]

theorem SpendDag.insert_contains_self (d : SpendDag) (a : SpendAddress) (s : SignedSpend) :
    (d.insert a s).containsAt a s = true := by
  rcases h : dagLookup d.entries a with _ | e
  · simp [SpendDag.insert, h, SpendDag.containsAt, dagLookup_set, DagEntry.spends]
  · cases e with
    | single s0 =>
      by_cases hs : s0 = s
      · subst hs
        simp [SpendDag.insert, h, SpendDag.containsAt, DagEntry.spends]
      · simp [SpendDag.insert, h, hs, SpendDag.containsAt, dagLookup_set, DagEntry.spends]
    | double l =>
      by_cases hs : s ∈ l
      · simp [SpendDag.insert, h, hs, SpendDag.containsAt, DagEntry.spends]
      · simp [SpendDag.insert, h, hs, SpendDag.containsAt, dagLookup_set, DagEntry.spends]

theorem SpendDag.insert_mono (d : SpendDag) (a a2 : SpendAddress) (s s2 : SignedSpend)
    (h : d.containsAt a s = true) : (d.insert a2 s2).containsAt a s = true := by
  unfold SpendDag.containsAt at h
  rcases hl : dagLookup d.entries a with _ | e
  · rw [hl] at h; cases h
  · rw [hl] at h
    have hmem : s ∈ e.spends := of_decide_eq_true h
    by_cases hx : a = a2
    · subst hx
      rcases e with s0 | l
      · simp only [DagEntry.spends] at hmem
        simp at hmem
        subst hmem
        by_cases hs : s = s2
        · subst hs
          simp [SpendDag.insert, hl, SpendDag.containsAt, DagEntry.spends]
        · simp [SpendDag.insert, hl, hs, SpendDag.containsAt, dagLookup_set, DagEntry.spends]
      · simp only [DagEntry.spends] at hmem
        by_cases hs : s2 ∈ l
        · simp [SpendDag.insert, hl, hs, SpendDag.containsAt, DagEntry.spends, hmem]
        · simp [SpendDag.insert, hl, hs, SpendDag.containsAt, dagLookup_set, DagEntry.spends]
          left
          exact hmem
    · have hkeep : ∀ l2 : List (SpendAddress × DagEntry),
          dagLookup (dagSet l2 a2 (DagEntry.single s2)) a = dagLookup l2 a := by
        intro l2
        rw [dagLookup_set, if_neg hx]
      rcases hl2 : dagLookup d.entries a2 with _ | e2
      · simp only [SpendDag.insert, hl2, SpendDag.containsAt, hkeep, hl]
        simp [hmem]
      · cases e2 with
        | single s0 =>
          by_cases hs : s0 = s2
          · have hd : d.insert a2 s2 = d := by
              simp [SpendDag.insert, hl2, hs]
            rw [hd]
            unfold SpendDag.containsAt
            rw [hl]
            simp [hmem]
          · have hd : (d.insert a2 s2).entries = dagSet d.entries a2 (DagEntry.double [s0, s2]) := by
              simp [SpendDag.insert, hl2, hs]
            unfold SpendDag.containsAt
            rw [hd, dagLookup_set, if_neg hx, hl]
            simp [hmem]
        | double l =>
          by_cases hs : s2 ∈ l
          · simp only [SpendDag.insert, hl2, if_pos hs, SpendDag.containsAt, hl]
            simp [hmem]
          · have hkeep2 : dagLookup (dagSet d.entries a2 (DagEntry.double (l ++ [s2]))) a = dagLookup d.entries a := by
              rw [dagLookup_set, if_neg hx]
            simp only [SpendDag.insert, hl2, if_neg hs, SpendDag.containsAt, hkeep2, hl]
            simp [hmem]

theorem SpendDag.insert_noop_of_contains (d : SpendDag) (a : SpendAddress) (s : SignedSpend)
    (h : d.containsAt a s = true) : d.insert a s = d := by
  unfold SpendDag.containsAt at h
  rcases hl : dagLookup d.entries a with _ | e
  · rw [hl] at h; cases h
  · rw [hl] at h
    have hmem : s ∈ e.spends := of_decide_eq_true h
    cases e with
    | single s0 =>
      simp only [DagEntry.spends] at hmem
      simp at hmem
      simp [SpendDag.insert, hl, hmem]
    | double l =>
      simp only [DagEntry.spends] at hmem
      simp [SpendDag.insert, hl, hmem]

theorem SpendDag.hasAddr_insert (d : SpendDag) (a x : SpendAddress) (s : SignedSpend) :
    (d.insert a s).hasAddr x = true ↔ (d.hasAddr x = true ∨ x = a) := by
  rcases hl : dagLookup d.entries a with _ | e
  · simp only [SpendDag.insert, hl, SpendDag.hasAddr, dagLookup_set]
    by_cases hx : x = a
    · simp [hx]
    · simp [hx]
  · have hsome : (dagLookup d.entries x).isSome = true ∨ x = a →
        (dagLookup d.entries x).isSome = true := by
      intro hc
      rcases hc with hc | hc
      · exact hc
      · subst hc
        simp [hl]
    cases e with
    | single s0 =>
      by_cases hs : s0 = s
      · simp only [SpendDag.insert, hl, if_pos hs, SpendDag.hasAddr]
        exact ⟨fun hh => Or.inl hh, hsome⟩
      · simp only [SpendDag.insert, hl, if_neg hs, SpendDag.hasAddr, dagLookup_set]
        by_cases hx : x = a
        · simp [hx]
        · simp [hx]
    | double l =>
      by_cases hs : s ∈ l
      · simp only [SpendDag.insert, hl, if_pos hs, SpendDag.hasAddr]
        exact ⟨fun hh => Or.inl hh, hsome⟩
      · simp only [SpendDag.insert, hl, if_neg hs, SpendDag.hasAddr, dagLookup_set]
        by_cases hx : x = a
        · simp [hx]
        · simp [hx]

theorem SpendDag.merge_mono (d other : SpendDag) (a : SpendAddress) (s : SignedSpend)
    (h : d.containsAt a s = true) : (d.merge other).containsAt a s = true := by
  unfold SpendDag.merge
  have aux : ∀ (ps : List (SpendAddress × DagEntry)) (acc : SpendDag),
      acc.containsAt a s = true →
      (ps.foldl (fun acc p => p.2.spends.foldl (fun acc2 t => acc2.insert p.1 t) acc) acc).containsAt a s = true := by
    intro ps
    induction ps with
    | nil => intro acc hacc; exact hacc
    | cons p rest ih =>
      intro acc hacc
      simp only [List.foldl_cons]
      apply ih
      have aux2 : ∀ (ss : List SignedSpend) (acc2 : SpendDag),
          acc2.containsAt a s = true →
          (ss.foldl (fun acc2 t => acc2.insert p.1 t) acc2).containsAt a s = true := by
        intro ss
        induction ss with
        | nil => intro acc2 h2; exact h2
        | cons t ts ih2 =>
          intro acc2 h2
          simp only [List.foldl_cons]
          exact ih2 _ (SpendDag.insert_mono _ _ _ _ _ h2)
      exact aux2 _ _ hacc
  exact aux _ _ h

/-!
Forward builder: `spend_dag_build_from` (spend_dag_building.rs lines 21-111).

One generation gathers the output-key addresses of every transaction to
follow, issues all store gets as one batch (`join_all` preserves issue
order, so the batch is the map of the store over the address list),
zips the results back against the addresses positionally, inserts the
`Ok` spends and collects their spent transactions for the next
generation; `Missing` and other errors insert nothing.  The set of
already-followed transaction hashes deduplicates the wavefront.
-/

/-- The output-key addresses of a generation of transactions, in the
order the source issues the fetches (transactions in order, each
transaction's outputs in order). -/
def genAddrs (txs : List Transaction) : List SpendAddress :=
  txs.flatMap (fun tx => tx.outputs.map from_unique_pubkey)

/-- Processing of one `(result, addr)` pair of the generation batch:
an `Ok` spend is inserted at the address it was requested from and its
spent transaction joins the next generation; `Missing` (a UTXO) and
transient errors change nothing. -/
def applyResult (acc : SpendDag × List Transaction) (p : GetResult × SpendAddress) :
    SpendDag × List Transaction :=
  match p with
  | (.ok spend, addr) =>
    (acc.1.insert addr spend, btreeInsert Transaction.cmp spend.spend.spent_tx acc.2)
  | (.missing, _) => acc
  | (.otherErr, _) => acc

/-- Fold of a generation batch over its `(result, addr)` pairs. -/
def buildFold (store : Store) (acc : SpendDag × List Transaction) (addrs : List SpendAddress) :
    SpendDag × List Transaction :=
  ((addrs.map store.get).zip addrs).foldl applyResult acc

/-- One generation of the forward build: fetch all descendant
addresses of the generation's transactions and apply the results. -/
def processGen (store : Store) (dag : SpendDag) (txs : List Transaction) :
    SpendDag × List Transaction :=
  buildFold store (dag, []) (genAddrs txs)

/-- The wavefront loop of `spend_dag_build_from`, fuelled; `none`
models running out of fuel (proved unreachable for the fuel the
builder passes). -/
def buildLoop (store : Store) : Nat → SpendDag → List Transaction → Finset Transaction →
    Option SpendDag
  | 0, _, _, _ => none
  | fuel + 1, dag, txs_to_follow, known_tx =>
    if txs_to_follow = [] then some dag
    else
      let out := processGen store dag txs_to_follow
      let known2 := known_tx ∪ (txs_to_follow.map Transaction.hash).toFinset
      buildLoop store fuel out.1
        (out.2.filter (fun tx => Transaction.hash tx ∉ known2)) known2

/-- Fuel passed to the wavefront loop: one more than the number of
distinct spent transactions the store can ever reveal. -/
def buildFuel (store : Store) : Nat := store.entries.length + 2

/-- Embedding of `spend_dag_build_from`: fetch the root spend (a
`Missing` root is a UTXO and yields the empty DAG, any other error is
`FailedToGetSpend`), insert it, then run the generation loop.  The
trailing advisory `dag.verify` call of the source only logs and never
alters the returned DAG, so it is not modelled.  The fuel-exhaustion
arm is proved unreachable below. -/
def spend_dag_build_from (store : Store) (spend_addr : SpendAddress) : WalletResult SpendDag :=
  match store.get spend_addr with
  | .ok first_spend =>
    match buildLoop store (buildFuel store) (SpendDag.new.insert spend_addr first_spend)
        [first_spend.spend.spent_tx] ∅ with
    | some d => .ok d
    | none => .error .FailedToGetSpend
  | .missing => .ok SpendDag.new
  | .otherErr => .error .FailedToGetSpend

/-- The spent transactions of all spends the store can return. -/
def Store.okSpentTxs (st : Store) : Finset Transaction :=
  (st.entries.filterMap
    (fun p => match p.2 with | .ok s => some s.spend.spent_tx | _ => none)).toFinset

theorem Store.get_ok_spentTx_mem (st : Store) (a : SpendAddress) (s : SignedSpend)
    (h : st.get a = .ok s) : s.spend.spent_tx ∈ st.okSpentTxs := by
  have hmem := lookupEntry_ok_mem st.entries a s h
  unfold Store.okSpentTxs
  rw [List.mem_toFinset, List.mem_filterMap]
  exact ⟨(a, .ok s), hmem, rfl⟩

theorem Store.okSpentTxs_card_le (st : Store) : st.okSpentTxs.card ≤ st.entries.length := by
  calc st.okSpentTxs.card
      ≤ (st.entries.filterMap
          (fun p => match p.2 with | .ok s => some s.spend.spent_tx | _ => none)).length :=
        List.toFinset_card_le _
    _ ≤ st.entries.length := List.length_filterMap_le _ _

theorem buildFold_next_mem (store : Store) (tx : Transaction) :
    ∀ (addrs : List SpendAddress) (acc : SpendDag × List Transaction),
    tx ∈ (buildFold store acc addrs).2 →
    tx ∈ acc.2 ∨ ∃ a s, store.get a = .ok s ∧ tx = s.spend.spent_tx := by
  intro addrs
  induction addrs with
  | nil =>
    intro acc h
    exact Or.inl h
  | cons b bs ih =>
    intro acc h
    simp only [buildFold, List.map_cons, List.zip_cons_cons, List.foldl_cons] at h
    rcases ih (applyResult acc (store.get b, b)) h with h2 | h2
    · cases hb : store.get b with
      | ok s =>
        rw [hb] at h2
        simp only [applyResult] at h2
        rcases (btreeInsert_mem_iff Transaction.cmp transactionCmp_eq_iff _ _ _).mp h2 with h3 | h3
        · exact Or.inr ⟨b, s, hb, h3⟩
        · exact Or.inl h3
      | missing =>
        rw [hb] at h2
        exact Or.inl h2
      | otherErr =>
        rw [hb] at h2
        exact Or.inl h2
    · exact Or.inr h2

theorem buildLoop_isSome (store : Store) (C : Finset Transaction)
    (hclosed : ∀ a s, store.get a = .ok s → s.spend.spent_tx ∈ C) :
    ∀ (fuel : Nat) (dag : SpendDag) (tf : List Transaction) (known : Finset Transaction),
    (∀ tx ∈ tf, tx ∈ C) → (∀ tx ∈ tf, tx ∉ known) → known ⊆ C →
    C.card + 1 - known.card ≤ fuel → (buildLoop store fuel dag tf known).isSome = true := by
  intro fuel
  induction fuel with
  | zero =>
    intro dag tf known _ _ h3 h4
    exfalso
    have := Finset.card_le_card h3
    omega
  | succ n ih =>
    intro dag tf known h1 h2 h3 h4
    by_cases htf : tf = []
    · simp [buildLoop, htf]
    · simp only [buildLoop, if_neg htf]
      cases tf with
      | nil => exact absurd rfl htf
      | cons t ts =>
        have hmap : ∀ x : Transaction, x ∈ ((t :: ts).map Transaction.hash).toFinset ↔ x ∈ t :: ts := by
          intro x
          rw [List.mem_toFinset, List.mem_map]
          constructor
          · rintro ⟨y, hy, rfl⟩
            exact hy
          · intro hx
            exact ⟨x, hx, rfl⟩
        have hsub2 : known ∪ ((t :: ts).map Transaction.hash).toFinset ⊆ C := by
          intro x hx
          rcases Finset.mem_union.mp hx with hx | hx
          · exact h3 hx
          · exact h1 x ((hmap x).mp hx)
        have hgrow : known.card < (known ∪ ((t :: ts).map Transaction.hash).toFinset).card := by
          apply Finset.card_lt_card
          rw [Finset.ssubset_iff_of_subset Finset.subset_union_left]
          refine ⟨t, ?_, h2 t (List.mem_cons_self _ _)⟩
          exact Finset.mem_union_right _ ((hmap t).mpr (List.mem_cons_self _ _))
        apply ih
        · intro tx htx
          have hin : tx ∈ (processGen store dag (t :: ts)).2 := (List.mem_filter.mp htx).1
          rcases buildFold_next_mem store tx (genAddrs (t :: ts)) (dag, []) hin with hc | hc
          · cases hc
          · rcases hc with ⟨a, s, hget, rfl⟩
            exact hclosed a s hget
        · intro tx htx
          exact of_decide_eq_true (List.mem_filter.mp htx).2
        · exact hsub2
        · have hle : (known ∪ ((t :: ts).map Transaction.hash).toFinset).card ≤ C.card :=
            Finset.card_le_card hsub2
          omega

theorem build_never_exhausts (store : Store) (first : SignedSpend) (dag : SpendDag) :
    (buildLoop store (buildFuel store) dag [first.spend.spent_tx] ∅).isSome = true := by
  apply buildLoop_isSome store (insert first.spend.spent_tx store.okSpentTxs)
  · intro a s h
    exact Finset.mem_insert_of_mem (Store.get_ok_spentTx_mem store a s h)
  · intro tx htx
    rcases List.mem_singleton.mp htx with rfl
    exact Finset.mem_insert_self _ _
  · intro tx htx
    rcases List.mem_singleton.mp htx with rfl
    exact Finset.not_mem_empty _
  · exact Finset.empty_subset _
  · have h1 : (insert first.spend.spent_tx store.okSpentTxs).card ≤ store.okSpentTxs.card + 1 :=
      Finset.card_insert_le _ _
    have h2 := Store.okSpentTxs_card_le store
    simp only [Finset.card_empty, buildFuel]
    omega

theorem buildFold_nil (store : Store) (acc : SpendDag × List Transaction) :
    buildFold store acc [] = acc := rfl

theorem buildFold_cons (store : Store) (acc : SpendDag × List Transaction)
    (b : SpendAddress) (bs : List SpendAddress) :
    buildFold store acc (b :: bs) = buildFold store (applyResult acc (store.get b, b)) bs := by
  simp [buildFold]

theorem buildFold_containsAt_mono (store : Store) :
    ∀ (addrs : List SpendAddress) (acc : SpendDag × List Transaction)
      (a : SpendAddress) (s : SignedSpend),
    acc.1.containsAt a s = true → (buildFold store acc addrs).1.containsAt a s = true := by
  intro addrs
  induction addrs with
  | nil => intro acc a s h; exact h
  | cons b bs ih =>
    intro acc a s h
    rw [buildFold_cons]
    apply ih
    cases hb : store.get b with
    | ok sp => simpa only [applyResult] using SpendDag.insert_mono acc.1 a b s sp h
    | missing => simpa only [applyResult] using h
    | otherErr => simpa only [applyResult] using h

theorem buildFold_next_mono (store : Store) :
    ∀ (addrs : List SpendAddress) (acc : SpendDag × List Transaction) (tx : Transaction),
    tx ∈ acc.2 → tx ∈ (buildFold store acc addrs).2 := by
  intro addrs
  induction addrs with
  | nil => intro acc tx h; exact h
  | cons b bs ih =>
    intro acc tx h
    rw [buildFold_cons]
    apply ih
    cases hb : store.get b with
    | ok sp =>
      simp only [applyResult]
      exact (btreeInsert_mem_iff Transaction.cmp transactionCmp_eq_iff _ _ _).mpr (Or.inr h)
    | missing => simpa only [applyResult] using h
    | otherErr => simpa only [applyResult] using h

theorem buildFold_ok_inserted (store : Store) :
    ∀ (addrs : List SpendAddress) (acc : SpendDag × List Transaction)
      (a : SpendAddress) (s : SignedSpend),
    a ∈ addrs → store.get a = .ok s →
    (buildFold store acc addrs).1.containsAt a s = true ∧
      s.spend.spent_tx ∈ (buildFold store acc addrs).2 := by
  intro addrs
  induction addrs with
  | nil => intro acc a s ha _; cases ha
  | cons b bs ih =>
    intro acc a s ha hget
    rcases List.mem_cons.mp ha with rfl | hmem
    · rw [buildFold_cons]
      constructor
      · apply buildFold_containsAt_mono
        rw [hget]
        simpa only [applyResult] using SpendDag.insert_contains_self acc.1 a s
      · apply buildFold_next_mono
        rw [hget]
        simp only [applyResult]
        exact (btreeInsert_mem_iff Transaction.cmp transactionCmp_eq_iff _ _ _).mpr (Or.inl rfl)
    · rw [buildFold_cons]
      exact ih _ a s hmem hget

theorem buildFold_hasAddr (store : Store) :
    ∀ (addrs : List SpendAddress) (acc : SpendDag × List Transaction) (x : SpendAddress),
    (buildFold store acc addrs).1.hasAddr x = true ↔
      (acc.1.hasAddr x = true ∨ (x ∈ addrs ∧ ∃ s, store.get x = .ok s)) := by
  intro addrs
  induction addrs with
  | nil =>
    intro acc x
    simp [buildFold_nil]
  | cons b bs ih =>
    intro acc x
    rw [buildFold_cons, ih]
    cases hb : store.get b with
    | ok s =>
      have hres : (applyResult acc (GetResult.ok s, b)).1 = acc.1.insert b s := rfl
      rw [hres, SpendDag.hasAddr_insert]
      constructor
      · rintro ((h | h) | ⟨h1, h2⟩)
        · exact Or.inl h
        · subst h
          exact Or.inr ⟨List.mem_cons_self _ _, ⟨s, hb⟩⟩
        · exact Or.inr ⟨List.mem_cons_of_mem _ h1, h2⟩
      · rintro (h | ⟨h1, h2⟩)
        · exact Or.inl (Or.inl h)
        · rcases List.mem_cons.mp h1 with rfl | h1
          · exact Or.inl (Or.inr rfl)
          · exact Or.inr ⟨h1, h2⟩
    | missing =>
      have hres : (applyResult acc (GetResult.missing, b)).1 = acc.1 := rfl
      rw [hres]
      constructor
      · rintro (h | ⟨h1, h2⟩)
        · exact Or.inl h
        · exact Or.inr ⟨List.mem_cons_of_mem _ h1, h2⟩
      · rintro (h | ⟨h1, h2⟩)
        · exact Or.inl h
        · rcases List.mem_cons.mp h1 with rfl | hm
          · rcases h2 with ⟨s2, hs2⟩
            rw [hb] at hs2
            cases hs2
          · exact Or.inr ⟨hm, h2⟩
    | otherErr =>
      have hres : (applyResult acc (GetResult.otherErr, b)).1 = acc.1 := rfl
      rw [hres]
      constructor
      · rintro (h | ⟨h1, h2⟩)
        · exact Or.inl h
        · exact Or.inr ⟨List.mem_cons_of_mem _ h1, h2⟩
      · rintro (h | ⟨h1, h2⟩)
        · exact Or.inl h
        · rcases List.mem_cons.mp h1 with rfl | hm
          · rcases h2 with ⟨s2, hs2⟩
            rw [hb] at hs2
            cases hs2
          · exact Or.inr ⟨hm, h2⟩

/-- The empty transaction, used by the concrete witness scenarios. -/
def txEmpty : Transaction := ⟨[], []⟩

/-- C4: `spend_dag_build_from` returns an error only when the root
fetch itself fails with a non-Missing error (surfaced as
`FailedToGetSpend`); a `Missing` root yields `Ok` with an empty DAG,
and once the root fetch succeeds every later-generation `Missing` or
transient result is absorbed, so the build still returns `Ok`. -/
theorem claim_C4 (store : Store) (root : SpendAddress) :
    (store.get root = .missing → spend_dag_build_from store root = .ok SpendDag.new)
  ∧ (store.get root = .otherErr →
      spend_dag_build_from store root = .error .FailedToGetSpend)
  ∧ (∀ first, store.get root = .ok first →
      ∃ d, spend_dag_build_from store root = .ok d) := by
  refine ⟨?_, ?_, ?_⟩
  · intro h
    simp [spend_dag_build_from, h]
  · intro h
    simp [spend_dag_build_from, h]
  · intro first h
    simp only [spend_dag_build_from, h]
    rcases ho : buildLoop store (buildFuel store) (SpendDag.new.insert root first)
        [first.spend.spent_tx] ∅ with _ | d
    · have hterm := build_never_exhausts store first (SpendDag.new.insert root first)
      rw [ho] at hterm
      simp at hterm
    · exact ⟨d, rfl⟩

/-- Spend used by the forward-build witness scenarios. -/
def sC4 : SignedSpend := ⟨⟨7, txEmpty, txEmpty⟩⟩

/-- Store used by the C4 witness: address 1 holds a spend, address 2
reports a transient error, every other address is missing. -/
def storeC4 : Store := ⟨[(1, .ok sC4), (2, .otherErr)]⟩

theorem claim_C4_witness :
    spend_dag_build_from storeC4 3 = .ok SpendDag.new
  ∧ spend_dag_build_from storeC4 2 = .error .FailedToGetSpend
  ∧ ∃ d, spend_dag_build_from storeC4 1 = .ok d :=
  ⟨(claim_C4 storeC4 3).1 (by decide),
   (claim_C4 storeC4 2).2.1 (by decide),
   (claim_C4 storeC4 1).2.2 sC4 (by decide)⟩

/-- C7: the forward-build wavefront loop always terminates — with the
fuel the builder passes (one more than the bound on reachable spent
transactions, always finite for a finite store) the loop never reaches
the fuel-exhaustion arm — and each generation follows only
transactions whose hash is not in the known set extended with the
hashes of the current generation, so the known set grows strictly
while the wavefront is non-empty, even when two spends share the same
spent transaction (deduplication is by hash, i.e. by value). -/
theorem claim_C7 (store : Store) (dag : SpendDag) (first : SignedSpend) :
    (buildLoop store (buildFuel store) dag [first.spend.spent_tx] ∅).isSome = true
  ∧ ∀ (dag2 : SpendDag) (tf : List Transaction) (known : Finset Transaction) (tx : Transaction),
      tx ∈ (processGen store dag2 tf).2.filter
          (fun t => Transaction.hash t ∉ known ∪ (tf.map Transaction.hash).toFinset) →
      Transaction.hash tx ∉ known ∪ (tf.map Transaction.hash).toFinset := by
  constructor
  · exact build_never_exhausts store first dag
  · intro dag2 tf known tx h
    exact of_decide_eq_true (List.mem_filter.mp h).2

/-- Transaction with a single output key 9. -/
def txT1 : Transaction := ⟨[], [9]⟩

/-- Transaction with a single output key 4, followed by the C7
witness generation. -/
def txTa : Transaction := ⟨[], [4]⟩

/-- Spend at address 4 whose spent transaction is `txT1`. -/
def sW7 : SignedSpend := ⟨⟨4, txEmpty, txT1⟩⟩

/-- Store used by the C7 and C9 witnesses. -/
def storeW7 : Store := ⟨[(4, .ok sW7)]⟩

theorem claim_C7_witness :
    (buildLoop storeW7 (buildFuel storeW7) SpendDag.new [sW7.spend.spent_tx] ∅).isSome = true
  ∧ Transaction.hash txT1 ∉ (∅ : Finset Transaction) ∪ ([txTa].map Transaction.hash).toFinset :=
  ⟨(claim_C7 storeW7 SpendDag.new sW7).1,
   (claim_C7 storeW7 SpendDag.new sW7).2 SpendDag.new [txTa] ∅ txT1 (by decide)⟩

/-- C9: in a forward-build generation, fetch results are matched to
addresses positionally (the join preserves issue order), so every
spend returned `Ok` for a requested address is recorded in the DAG at
exactly that address and its spent transaction is enqueued for the
next generation, while `Missing` and error results insert nothing: the
DAG gains an address only when its fetch returned `Ok`. -/
theorem claim_C9 (store : Store) (dag : SpendDag) (txs : List Transaction) :
    (∀ a s, a ∈ genAddrs txs → store.get a = .ok s →
        (processGen store dag txs).1.containsAt a s = true ∧
          s.spend.spent_tx ∈ (processGen store dag txs).2)
  ∧ ∀ x, (processGen store dag txs).1.hasAddr x = true ↔
      (dag.hasAddr x = true ∨ (x ∈ genAddrs txs ∧ ∃ s, store.get x = .ok s)) := by
  constructor
  · intro a s ha hget
    exact buildFold_ok_inserted store (genAddrs txs) (dag, []) a s ha hget
  · intro x
    exact buildFold_hasAddr store (genAddrs txs) (dag, []) x

theorem claim_C9_witness :
    ((processGen storeW7 SpendDag.new [txTa]).1.containsAt 4 sW7 = true ∧
      sW7.spend.spent_tx ∈ (processGen storeW7 SpendDag.new [txTa]).2)
  ∧ ((processGen storeW7 SpendDag.new [txTa]).1.hasAddr 4 = true ↔
      (SpendDag.new.hasAddr 4 = true ∨ (4 ∈ genAddrs [txTa] ∧ ∃ s, storeW7.get 4 = .ok s))) :=
  ⟨(claim_C9 storeW7 SpendDag.new [txTa]).1 4 sW7 (by decide) (by decide),
   (claim_C9 storeW7 SpendDag.new [txTa]).2 4⟩

/-!
Backward extender: `spend_dag_extend_until` (spend_dag_building.rs
lines 132-229).

Each depth processes the parent transactions to verify in order: fetch
all input addresses in parallel (any `Missing` or transient error
fails the whole extend with `CouldNotVerifyTransfer`), collect the
spends into a `BTreeSet` (sorted, deduplicated), short-circuit at the
genesis transaction, otherwise verify the transaction against the
spends, then insert the spends — the source zips the sorted spend set
against the input-order address list — and enqueue the parent
transactions of the newly inserted spends.
-/

/-- Modelled from the spec: the process-wide genesis constant
`GENESIS_CASHNOTE` — a distinguished source transaction and the unique
public key of its single spend.  The embedded extender takes it as a
parameter. -/
structure GenesisCashnote where
  src_tx : Transaction
  id : PK

/-- Modelled from the spec: `verify_against_inputs_spent` accepts a
transaction against a set of input spends iff the set of spends
exactly matches the declared inputs; the model keeps the key-matching
component — the set of unique public keys of the given spends equals
the set of declared input keys — since amounts and signatures are not
modelled. -/
def Transaction.verify_against_inputs_spent (tx : Transaction) (spends : List SignedSpend) : Bool :=
  decide (btreeOfList cmpN (spends.map (fun s => s.spend.unique_pubkey)) =
    btreeOfList cmpN tx.inputs)

/-- State threaded through one depth of the backward extension: the
DAG under mutation, the next generation of parent transactions and the
set of verified transaction hashes. -/
structure ExtSt where
  dag : SpendDag
  next : List Transaction
  verified : Finset Transaction

/-- The input-key addresses of a parent transaction, in input order
(`addrs_to_verify` in the source). -/
def parentAddrs (p : Transaction) : List SpendAddress :=
  p.inputs.map from_unique_pubkey

/-- The fetch results for a parent transaction's input addresses, in
issue order (`join_all` preserves it). -/
def parentResults (store : Store) (p : Transaction) : List GetResult :=
  (parentAddrs p).map store.get

/-- The fetched parent spends collected into a `BTreeSet`: sorted by
the spend ordering and deduplicated (`collect::<Result<BTreeSet<_>>>`
in the source). -/
def parentSpends (store : Store) (p : Transaction) : List SignedSpend :=
  btreeOfList SignedSpend.cmp ((parentResults store p).filterMap GetResult.toOk)

/-- One step of the insertion loop of the backward extender:
`check_and_insert` the spend at the zipped address and, if it was new,
enqueue its parent transaction. -/
def extFold (acc : SpendDag × List Transaction) (pr : SignedSpend × SpendAddress) :
    SpendDag × List Transaction :=
  ((acc.1.check_and_insert pr.2 pr.1).2,
   if (acc.1.check_and_insert pr.2 pr.1).1 then
     btreeInsert Transaction.cmp pr.1.spend.parent_tx acc.2
   else acc.2)

/-- Processing of one parent transaction at a depth of
`spend_dag_extend_until`: fetch all input addresses (any non-Ok result
fails with `CouldNotVerifyTransfer`), short-circuit when the parent is
the genesis transaction with exactly one fetched spend carrying the
genesis key, otherwise verify the transaction (failure is
`CouldNotVerifyTransfer`) and run the insertion loop, which zips the
sorted spend set against the input-order address list as the source
does. -/
def processParent (g : GenesisCashnote) (store : Store) (st : ExtSt) (p : Transaction) :
    ExtSt × Option WalletError :=
  if (parentResults store p).any (fun r => !r.isOk) then
    (st, some .CouldNotVerifyTransfer)
  else if p = g.src_tx ∧ (∀ s ∈ parentSpends store p, s.spend.unique_pubkey = g.id) ∧
      (parentSpends store p).length = 1 then
    ({ st with verified := insert (Transaction.hash p) st.verified }, none)
  else if p.verify_against_inputs_spent (parentSpends store p) = false then
    (st, some .CouldNotVerifyTransfer)
  else
    ({ dag := (((parentSpends store p).zip (parentAddrs p)).foldl extFold (st.dag, st.next)).1,
       next := (((parentSpends store p).zip (parentAddrs p)).foldl extFold (st.dag, st.next)).2,
       verified := insert (Transaction.hash p) st.verified }, none)

/-- Sequential processing of the parent transactions of one depth; the
first error aborts the depth (the `?` operator in the source). -/
def processParents (g : GenesisCashnote) (store : Store) :
    ExtSt → List Transaction → ExtSt × Option WalletError
  | st, [] => (st, none)
  | st, p :: rest =>
    match processParent g store st p with
    | (st2, none) => processParents g store st2 rest
    | (st2, some e) => (st2, some e)

/-- The depth loop of `spend_dag_extend_until`, fuelled; the
fuel-exhaustion arm reports the same error class as any other abort.
After a depth, only parents not already verified are followed. -/
def extendLoop (g : GenesisCashnote) (store : Store) :
    Nat → SpendDag → List Transaction → Finset Transaction → SpendDag × WalletResult Unit
  | 0, dag, _, _ => (dag, .error .CouldNotVerifyTransfer)
  | fuel + 1, dag, txs_to_verify, verified_tx =>
    if txs_to_verify = [] then (dag, .ok ())
    else
      match processParents g store { dag := dag, next := [], verified := verified_tx }
          txs_to_verify with
      | (st2, some e) => (st2.dag, .error e)
      | (st2, none) =>
        extendLoop g store fuel st2.dag
          (st2.next.filter (fun tx => Transaction.hash tx ∉ st2.verified)) st2.verified

/-- Fuel passed to the depth loop; the verified-set deduplication
bounds the number of depths by the store size, mirroring the source's
termination argument. -/
def extendFuel (store : Store) : Nat := store.entries.length + 2

/-- Embedding of `spend_dag_extend_until`: `check_and_insert` the new
spend (if it was already present, return success immediately), then
ascend through parent transactions until every branch meets an
already-known spend or genesis. -/
def spend_dag_extend_until (g : GenesisCashnote) (store : Store) (dag : SpendDag)
    (spend_addr : SpendAddress) (new_spend : SignedSpend) : SpendDag × WalletResult Unit :=
  if (dag.check_and_insert spend_addr new_spend).1 = false then
    ((dag.check_and_insert spend_addr new_spend).2, .ok ())
  else
    extendLoop g store (extendFuel store) (dag.check_and_insert spend_addr new_spend).2
      [new_spend.spend.parent_tx] ∅

theorem SpendDag.check_and_insert_eq (d : SpendDag) (a : SpendAddress) (s : SignedSpend) :
    d.check_and_insert a s = (!d.containsAt a s, d.insert a s) := by
  unfold SpendDag.check_and_insert SpendDag.containsAt
  cases h : dagLookup d.entries a with
  | none => simp [h]
  | some e => simp [h]

theorem extFold_containsAt_mono :
    ∀ (pairs : List (SignedSpend × SpendAddress)) (acc : SpendDag × List Transaction)
      (a : SpendAddress) (s : SignedSpend),
    acc.1.containsAt a s = true → (pairs.foldl extFold acc).1.containsAt a s = true := by
  intro pairs
  induction pairs with
  | nil => intro acc a s h; exact h
  | cons pr prs ih =>
    intro acc a s h
    simp only [List.foldl_cons]
    apply ih
    have hstep : (extFold acc pr).1 = acc.1.insert pr.2 pr.1 := by
      simp [extFold, SpendDag.check_and_insert_eq]
    rw [hstep]
    exact SpendDag.insert_mono acc.1 a pr.2 s pr.1 h

theorem processParent_dag_mono (g : GenesisCashnote) (store : Store) (st : ExtSt)
    (p : Transaction) (a : SpendAddress) (s : SignedSpend)
    (h : st.dag.containsAt a s = true) :
    ((processParent g store st p).1).dag.containsAt a s = true := by
  unfold processParent
  split
  · exact h
  · split
    · exact h
    · split
      · exact h
      · exact extFold_containsAt_mono _ _ a s h

theorem processParents_dag_mono (g : GenesisCashnote) (store : Store) :
    ∀ (l : List Transaction) (st : ExtSt) (a : SpendAddress) (s : SignedSpend),
    st.dag.containsAt a s = true →
    ((processParents g store st l).1).dag.containsAt a s = true := by
  intro l
  induction l with
  | nil => intro st a s h; exact h
  | cons p rest ih =>
    intro st a s h
    simp only [processParents]
    rcases hp : processParent g store st p with ⟨st2, e⟩
    have hst2 : st2.dag.containsAt a s = true := by
      have := processParent_dag_mono g store st p a s h
      rw [hp] at this
      exact this
    cases e with
    | none => exact ih st2 a s hst2
    | some e2 => exact hst2

theorem extendLoop_dag_mono (g : GenesisCashnote) (store : Store) :
    ∀ (fuel : Nat) (dag : SpendDag) (tv : List Transaction) (ver : Finset Transaction)
      (a : SpendAddress) (s : SignedSpend),
    dag.containsAt a s = true →
    ((extendLoop g store fuel dag tv ver).1).containsAt a s = true := by
  intro fuel
  induction fuel with
  | zero => intro dag tv ver a s h; exact h
  | succ n ih =>
    intro dag tv ver a s h
    by_cases htv : tv = []
    · simp only [extendLoop, if_pos htv]
      exact h
    · simp only [extendLoop, if_neg htv]
      rcases hp : processParents g store { dag := dag, next := [], verified := ver } tv
        with ⟨st2, e⟩
      have hst2 : st2.dag.containsAt a s = true := by
        have := processParents_dag_mono g store tv
          { dag := dag, next := [], verified := ver } a s h
        rw [hp] at this
        exact this
      cases e with
      | none => exact ih st2.dag _ st2.verified a s hst2
      | some e2 => exact hst2

theorem extend_result_contains (g : GenesisCashnote) (store : Store) (dag : SpendDag)
    (a : SpendAddress) (s : SignedSpend) (dag2 : SpendDag) (r : WalletResult Unit)
    (h : spend_dag_extend_until g store dag a s = (dag2, r)) :
    dag2.containsAt a s = true := by
  unfold spend_dag_extend_until at h
  rw [SpendDag.check_and_insert_eq] at h
  split at h
  · injection h with h1 h2
    subst h1
    exact SpendDag.insert_contains_self dag a s
  · rcases he : extendLoop g store (extendFuel store) (!dag.containsAt a s, dag.insert a s).2
        [s.spend.parent_tx] ∅ with ⟨dagF, rF⟩
    rw [he] at h
    injection h with h1 h2
    subst h1
    have := extendLoop_dag_mono g store (extendFuel store) (dag.insert a s)
      [s.spend.parent_tx] ∅ a s (SpendDag.insert_contains_self dag a s)
    rw [he] at this
    exact this

theorem processParent_fail_fetch (g : GenesisCashnote) (store : Store) (st : ExtSt)
    (p : Transaction) (h : ∃ a ∈ parentAddrs p, (store.get a).isOk = false) :
    processParent g store st p = (st, some .CouldNotVerifyTransfer) := by
  rcases h with ⟨a, hmem, hfail⟩
  have hany : (parentResults store p).any (fun r => !r.isOk) = true := by
    rw [List.any_eq_true]
    refine ⟨store.get a, ?_, ?_⟩
    · unfold parentResults
      exact List.mem_map_of_mem _ hmem
    · rw [hfail]
      rfl
  unfold processParent
  rw [if_pos hany]

theorem processParents_append (g : GenesisCashnote) (store : Store) :
    ∀ (l1 l2 : List Transaction) (st st2 : ExtSt),
    processParents g store st l1 = (st2, none) →
    processParents g store st (l1 ++ l2) = processParents g store st2 l2 := by
  intro l1
  induction l1 with
  | nil =>
    intro l2 st st2 h
    simp only [processParents] at h
    injection h with h1 h2
    subst h1
    rfl
  | cons p rest ih =>
    intro l2 st st2 h
    simp only [List.cons_append, processParents] at h ⊢
    rcases hp : processParent g store st p with ⟨st3, e⟩
    rw [hp] at h
    cases e with
    | none => exact ih l2 st3 st2 h
    | some e2 =>
      injection h with h1 h2
      cases h2

/-- C8: `spend_dag_extend_until` is idempotent at its entry point — if
the new spend is already stored byte-equal at the given address
(`check_and_insert` returns `false`), the call returns success
immediately with the DAG unchanged (so no store get and no further
mutation can be observed), and hence a second call with the same
address and spend after a successful first call is a no-op returning
success. -/
theorem claim_C8 (g : GenesisCashnote) (store : Store) :
    (∀ (dag : SpendDag) (a : SpendAddress) (s : SignedSpend),
      dag.containsAt a s = true →
      spend_dag_extend_until g store dag a s = (dag, .ok ()))
  ∧ (∀ (dag dag2 : SpendDag) (a : SpendAddress) (s : SignedSpend),
      spend_dag_extend_until g store dag a s = (dag2, .ok ()) →
      spend_dag_extend_until g store dag2 a s = (dag2, .ok ())) := by
  have part1 : ∀ (dag : SpendDag) (a : SpendAddress) (s : SignedSpend),
      dag.containsAt a s = true →
      spend_dag_extend_until g store dag a s = (dag, .ok ()) := by
    intro dag a s h
    unfold spend_dag_extend_until
    rw [SpendDag.check_and_insert_eq, h]
    simp [SpendDag.insert_noop_of_contains dag a s h]
  refine ⟨part1, ?_⟩
  intro dag dag2 a s h
  exact part1 dag2 a s (extend_result_contains g store dag a s dag2 (.ok ()) h)

/-- Genesis constant used by generic witness scenarios. -/
def gW : GenesisCashnote := ⟨⟨[0], [0]⟩, 0⟩

/-- Empty store: every address reports missing. -/
def storeW8 : Store := ⟨[]⟩

/-- Spend whose parent transaction has no inputs, so a backward extend
from it verifies vacuously and terminates at once. -/
def sW8 : SignedSpend := ⟨⟨5, txEmpty, txEmpty⟩⟩

/-- DAG already holding `sW8` at its address. -/
def dagW8 : SpendDag := SpendDag.new.insert 5 sW8

theorem claim_C8_witness :
    spend_dag_extend_until gW storeW8 dagW8 5 sW8 = (dagW8, .ok ())
  ∧ spend_dag_extend_until gW storeW8 dagW8 5 sW8 = (dagW8, .ok ()) :=
  ⟨(claim_C8 gW storeW8).1 dagW8 5 sW8 (by decide),
   (claim_C8 gW storeW8).2 SpendDag.new dagW8 5 sW8 (by decide)⟩

/-- C3: in `spend_dag_extend_until`, if any store get for any input
address of a parent transaction reached by the ascent returns Missing
or a transient error, the whole extend fails with
`CouldNotVerifyTransfer` — at the depth loop (first conjunct: any
parent whose fetch batch has a non-Ok result, reached after the
parents before it processed cleanly, aborts the loop with that error)
and from the entry point (second conjunct: a new spend whose parent
transaction has such an input fails the whole call). -/
theorem claim_C3 (g : GenesisCashnote) (store : Store) :
    (∀ (fuel : Nat) (dag : SpendDag) (verified : Finset Transaction)
       (pre : List Transaction) (p : Transaction) (post : List Transaction) (st2 : ExtSt),
      processParents g store { dag := dag, next := [], verified := verified } pre = (st2, none) →
      (∃ a ∈ parentAddrs p, (store.get a).isOk = false) →
      (extendLoop g store (fuel + 1) dag (pre ++ p :: post) verified).2 =
        .error .CouldNotVerifyTransfer)
  ∧ (∀ (dag : SpendDag) (a : SpendAddress) (s : SignedSpend),
      dag.containsAt a s = false →
      (∃ b ∈ parentAddrs s.spend.parent_tx, (store.get b).isOk = false) →
      (spend_dag_extend_until g store dag a s).2 = .error .CouldNotVerifyTransfer) := by
  have part1 : ∀ (fuel : Nat) (dag : SpendDag) (verified : Finset Transaction)
      (pre : List Transaction) (p : Transaction) (post : List Transaction) (st2 : ExtSt),
      processParents g store { dag := dag, next := [], verified := verified } pre = (st2, none) →
      (∃ a ∈ parentAddrs p, (store.get a).isOk = false) →
      (extendLoop g store (fuel + 1) dag (pre ++ p :: post) verified).2 =
        .error .CouldNotVerifyTransfer := by
    intro fuel dag verified pre p post st2 hpre hfail
    have hnil : pre ++ p :: post ≠ [] := by simp
    have hrun : processParents g store { dag := dag, next := [], verified := verified }
        (pre ++ p :: post) = (st2, some .CouldNotVerifyTransfer) := by
      rw [processParents_append g store pre (p :: post) _ st2 hpre]
      simp only [processParents]
      rw [processParent_fail_fetch g store st2 p hfail]
    simp only [extendLoop, if_neg hnil, hrun]
  refine ⟨part1, ?_⟩
  intro dag a s hnew hfail
  unfold spend_dag_extend_until
  rw [SpendDag.check_and_insert_eq, hnew]
  have hcond : ¬((!false : Bool) = false) := by simp
  rw [if_neg hcond]
  have hfuel : extendFuel store = store.entries.length + 1 + 1 := rfl
  rw [hfuel]
  exact part1 (store.entries.length + 1) (dag.insert a s) ∅ [] s.spend.parent_tx []
    { dag := dag.insert a s, next := [], verified := ∅ } rfl hfail

/-- Parent transaction with a single input key 1, unfetchable from the
empty store. -/
def p3 : Transaction := ⟨[1], []⟩

/-- Spend whose parent transaction is `p3`. -/
def s3 : SignedSpend := ⟨⟨5, p3, txEmpty⟩⟩

theorem claim_C3_witness :
    (extendLoop gW storeW8 1 SpendDag.new [p3] ∅).2 = .error .CouldNotVerifyTransfer
  ∧ (spend_dag_extend_until gW storeW8 SpendDag.new 5 s3).2 = .error .CouldNotVerifyTransfer :=
  ⟨(claim_C3 gW storeW8).1 0 SpendDag.new ∅ [] p3 []
      { dag := SpendDag.new, next := [], verified := ∅ } rfl (by decide),
   (claim_C3 gW storeW8).2 SpendDag.new 5 s3 (by decide) (by decide)⟩

/-- C6: genesis short-circuit of the backward extension — when the
parent transaction equals the genesis source transaction and exactly
one spend was fetched for it, carrying the genesis key, the
transaction is recorded as verified and the branch stops (DAG and next
generation unchanged, and `verify_against_inputs_spent` plays no role:
the conclusion holds with no assumption on it); in every other case a
failing `verify_against_inputs_spent` aborts the parent's processing
with `CouldNotVerifyTransfer`. -/
theorem claim_C6 (g : GenesisCashnote) (store : Store) (st : ExtSt) (p : Transaction)
    (hok : (parentResults store p).any (fun r => !r.isOk) = false) :
    (∀ s, parentSpends store p = [s] → s.spend.unique_pubkey = g.id → p = g.src_tx →
      processParent g store st p =
        ({ st with verified := insert (Transaction.hash p) st.verified }, none))
  ∧ ((¬ (p = g.src_tx ∧ (∀ s ∈ parentSpends store p, s.spend.unique_pubkey = g.id) ∧
        (parentSpends store p).length = 1)) →
      p.verify_against_inputs_spent (parentSpends store p) = false →
      processParent g store st p = (st, some .CouldNotVerifyTransfer)) := by
  constructor
  · intro s hone hid hsrc
    have hsc : p = g.src_tx ∧ (∀ s2 ∈ parentSpends store p, s2.spend.unique_pubkey = g.id) ∧
        (parentSpends store p).length = 1 := by
      refine ⟨hsrc, ?_, ?_⟩
      · intro s2 hs2
        rw [hone] at hs2
        rcases List.mem_singleton.mp hs2 with rfl
        exact hid
      · rw [hone]
        rfl
    unfold processParent
    rw [if_neg (by rw [hok]; exact fun hc => nomatch hc), if_pos hsc]
  · intro hnot hvf
    unfold processParent
    rw [if_neg (by rw [hok]; exact fun hc => nomatch hc), if_neg hnot, if_pos hvf]

/-- Genesis source transaction of the C6 witness: two input keys, both
resolving to the same fetched spend, so the deduplicated spend set has
exactly one element while key-matching verification would fail. -/
def Tg6 : Transaction := ⟨[0, 3], []⟩

/-- Genesis constant of the C6 witness. -/
def gW6 : GenesisCashnote := ⟨Tg6, 0⟩

/-- The genesis spend of the C6 witness. -/
def Sg6 : SignedSpend := ⟨⟨0, txEmpty, txEmpty⟩⟩

/-- Store of the C6 witness: both genesis input addresses resolve to
the genesis spend. -/
def storeW6 : Store := ⟨[(0, .ok Sg6), (3, .ok Sg6)]⟩

/-- Initial extension state of the C6 witness. -/
def stW6 : ExtSt := ⟨SpendDag.new, [], ∅⟩

/-- Non-genesis parent of the C6 witness whose verification fails. -/
def p6b : Transaction := ⟨[3], []⟩

theorem claim_C6_witness :
    processParent gW6 storeW6 stW6 Tg6 =
      ({ stW6 with verified := insert (Transaction.hash Tg6) stW6.verified }, none)
  ∧ processParent gW6 storeW6 stW6 p6b = (stW6, some .CouldNotVerifyTransfer) :=
  ⟨(claim_C6 gW6 storeW6 stW6 Tg6 (by decide)).1 Sg6 (by decide) (by decide) (by decide),
   (claim_C6 gW6 storeW6 stW6 p6b (by decide)).2 (by decide) (by decide)⟩

/-- Genesis source transaction of the backward-extend-to-genesis
scenario: one input carrying the genesis key. -/
def Tg5 : Transaction := ⟨[0], [7]⟩

/-- Genesis constant of the scenario. -/
def g5 : GenesisCashnote := ⟨Tg5, 0⟩

/-- The genesis spend of the scenario. -/
def Sg5 : SignedSpend := ⟨⟨0, txEmpty, txEmpty⟩⟩

/-- First intermediate transaction (consumes key 7, emits key 8). -/
def T1five : Transaction := ⟨[7], [8]⟩

/-- Spend of key 7, produced by the genesis transaction. -/
def S1five : SignedSpend := ⟨⟨7, Tg5, txEmpty⟩⟩

/-- Second intermediate transaction (consumes key 8, emits key 9). -/
def T2five : Transaction := ⟨[8], [9]⟩

/-- Spend of key 8, produced by `T1five`. -/
def S2five : SignedSpend := ⟨⟨8, T1five, txEmpty⟩⟩

/-- The new spend of the scenario, of key 9, produced by `T2five`. -/
def Sk5 : SignedSpend := ⟨⟨9, T2five, txEmpty⟩⟩

/-- Store of the scenario: every ancestor resolves. -/
def store5 : Store := ⟨[(7, .ok S1five), (8, .ok S2five), (0, .ok Sg5)]⟩

/-- The DAG the scenario ends with. -/
def dag5final : SpendDag :=
  ⟨[(9, .single Sk5), (8, .single S2five), (7, .single S1five)]⟩

/-- C5 counterexample: in the backward-extend-to-genesis scenario the
extend succeeds, but the genesis ancestor spend is contained nowhere
in the resulting DAG — the genesis short-circuit skips the insertion
loop — so the DAG does not contain all 3 ancestor spends plus the new
spend as the claim states. -/
theorem claim_C5_counterexample :
    (spend_dag_extend_until g5 store5 SpendDag.new 9 Sk5).2 = .ok ()
  ∧ ((spend_dag_extend_until g5 store5 SpendDag.new 9 Sk5).1).entries.all
      (fun pe => decide (¬ Sg5 ∈ pe.2.spends)) = true := by
  decide

/-- C5 (amended): backward extend to genesis — starting from an empty
DAG, extending with `Sk5`, whose parent transaction chains back
through two intermediate transactions to the genesis source
transaction with a single input spend carrying the genesis key,
succeeds, and the DAG then holds exactly the new spend and the two
intermediate ancestor spends (3 entries); the genesis spend itself is
fetched to satisfy the short-circuit but is not inserted. -/
theorem claim_C5 :
    spend_dag_extend_until g5 store5 SpendDag.new 9 Sk5 = (dag5final, .ok ())
  ∧ dag5final.containsAt 9 Sk5 = true
  ∧ dag5final.containsAt 8 S2five = true
  ∧ dag5final.containsAt 7 S1five = true
  ∧ dag5final.containsAt (from_unique_pubkey g5.id) Sg5 = false
  ∧ dag5final.entries.length = 3 := by
  decide

/-- Parent transaction of the misalignment scenario: two inputs, in
the order key 2 then key 1. -/
def p2 : Transaction := ⟨[2, 1], [5]⟩

/-- Spend of key 1 (its own address is 1). -/
def S1two : SignedSpend := ⟨⟨1, p2, txEmpty⟩⟩

/-- Spend of key 2 (its own address is 2). -/
def S2two : SignedSpend := ⟨⟨2, p2, txEmpty⟩⟩

/-- The new spend of the misalignment scenario. -/
def Sk2 : SignedSpend := ⟨⟨5, p2, txEmpty⟩⟩

/-- Store of the misalignment scenario. -/
def store2 : Store := ⟨[(1, .ok S1two), (2, .ok S2two)]⟩

/-- C2: evaluation of `spend_dag_extend_until` at the failing input —
the parent transaction lists its inputs as key 2 then key 1, the
fetched spends are collected into a sorted set (ordered by key: spend
of key 1 first) and zipped against the input-order address list, so
the spend of key 1 is recorded at address 2 (a different input's
address) and not at its own address 1, while the call still reports
success. -/
theorem claim_C2 :
    (spend_dag_extend_until gW store2 SpendDag.new 5 Sk2).2 = .ok ()
  ∧ ((spend_dag_extend_until gW store2 SpendDag.new 5 Sk2).1).containsAt 2 S1two = true
  ∧ from_unique_pubkey S1two.spend.unique_pubkey = 1
  ∧ ((spend_dag_extend_until gW store2 SpendDag.new 5 Sk2).1).containsAt 1 S1two = false := by
  decide

/-!
UTXO continuation: `spend_dag_continue_from_utxos`
(spend_dag_building.rs lines 233-250).

One forward-build task is spawned per current UTXO; results are joined
in completion order and each completed sub-DAG is merged into the
caller's DAG.  The two `?` operators in the join loop propagate the
first failed result out of the whole function, abandoning the
remaining tasks.  The completion order of the tasks is an explicit
`order` argument of the model; the intended calls pass a permutation
of `dag.get_utxos`.  The task-panic arm (`JoinError`, also surfaced as
`FailedToGetSpend`) is unreachable in a pure model. -/

/-- The join loop of `spend_dag_continue_from_utxos`: run the forward
build for each address in completion order, merging each completed
sub-DAG; the first failed result aborts the loop, keeping the DAG as
mutated so far. -/
def continueLoop (store : Store) : SpendDag → List SpendAddress → SpendDag × WalletResult Unit
  | dag, [] => (dag, .ok ())
  | dag, u :: rest =>
    match spend_dag_build_from store u with
    | .ok sub_dag => continueLoop store (dag.merge sub_dag) rest
    | .error e => (dag, .error e)

/-- Embedding of `spend_dag_continue_from_utxos` for a given task
completion order. -/
def spend_dag_continue_from_utxos (store : Store) (dag : SpendDag)
    (order : List SpendAddress) : SpendDag × WalletResult Unit :=
  continueLoop store dag order

/-- Transaction whose outputs are the two UTXO keys of the C1 and C10
scenario. -/
def Tc : Transaction := ⟨[], [10, 11]⟩

/-- Root spend of the C1 and C10 scenario. -/
def S0c : SignedSpend := ⟨⟨0, txEmpty, Tc⟩⟩

/-- DAG with one spend whose spent transaction has two unspent output
keys, so its UTXO frontier is the two addresses 10 and 11. -/
def dagC1 : SpendDag := SpendDag.new.insert 100 S0c

/-- Store of the C1 and C10 scenario: address 10 reports a transient
error (its forward build fails), address 11 is missing (its forward
build completes with an empty DAG). -/
def storeC1 : Store := ⟨[(10, .otherErr)]⟩

/-- C1 counterexample: with two UTXO tasks of which the one joined
first fails and the other completes, the aggregate does not complete —
`spend_dag_continue_from_utxos` returns the error even though one task
completed — refuting the claim that the aggregate completes as long as
at least one task completes. -/
theorem claim_C1_counterexample :
    dagC1.get_utxos = [10, 11]
  ∧ (spend_dag_continue_from_utxos storeC1 dagC1 dagC1.get_utxos).2 =
      .error .FailedToGetSpend
  ∧ spend_dag_build_from storeC1 11 = .ok SpendDag.new := by
  decide

/-- C1 (amended): a failure of one per-UTXO forward-build task aborts
the aggregate — once the failed task's result is joined (after any
prefix of cleanly joined tasks), `spend_dag_continue_from_utxos`
returns that task's error instead of completing, regardless of how
many other tasks complete. -/
theorem claim_C1 (store : Store) (dag : SpendDag) (pre : List SpendAddress)
    (u : SpendAddress) (post : List SpendAddress) (e : WalletError)
    (hpre : (continueLoop store dag pre).2 = .ok ())
    (hu : spend_dag_build_from store u = .error e) :
    (spend_dag_continue_from_utxos store dag (pre ++ u :: post)).2 = .error e := by
  unfold spend_dag_continue_from_utxos
  induction pre generalizing dag with
  | nil =>
    simp only [List.nil_append, continueLoop, hu]
  | cons v vs ih =>
    simp only [List.cons_append, continueLoop]
    cases hv : spend_dag_build_from store v with
    | ok sub_dag =>
      apply ih
      simp only [continueLoop, hv] at hpre
      exact hpre
    | error e2 =>
      simp only [continueLoop, hv] at hpre
      cases hpre

theorem claim_C1_witness :
    (spend_dag_continue_from_utxos storeC1 dagC1 [11, 10]).2 = .error .FailedToGetSpend :=
  claim_C1 storeC1 dagC1 [11] 10 [] .FailedToGetSpend (by decide) (by decide)

/-- C10: when `spend_dag_continue_from_utxos` returns an error the DAG
is not rolled back — every spend the caller's DAG contained is still
contained in the returned DAG for any completion order (the DAG never
shrinks), and when the tasks joined before the failure completed
cleanly the returned DAG is exactly the caller's DAG with their
sub-DAGs already merged in, alongside the error. -/
theorem claim_C10 (store : Store) (dag : SpendDag) :
    (∀ (order : List SpendAddress) (a : SpendAddress) (s : SignedSpend),
      dag.containsAt a s = true →
      ((spend_dag_continue_from_utxos store dag order).1).containsAt a s = true)
  ∧ (∀ (pre : List SpendAddress) (u : SpendAddress) (post : List SpendAddress)
       (e : WalletError),
      (continueLoop store dag pre).2 = .ok () →
      spend_dag_build_from store u = .error e →
      spend_dag_continue_from_utxos store dag (pre ++ u :: post) =
        ((continueLoop store dag pre).1, .error e)) := by
  constructor
  · intro order
    unfold spend_dag_continue_from_utxos
    induction order generalizing dag with
    | nil => intro a s h; exact h
    | cons v vs ih =>
      intro a s h
      simp only [continueLoop]
      cases hv : spend_dag_build_from store v with
      | ok sub_dag => exact ih (dag.merge sub_dag) a s (SpendDag.merge_mono dag sub_dag a s h)
      | error e2 => exact h
  · intro pre
    unfold spend_dag_continue_from_utxos
    induction pre generalizing dag with
    | nil =>
      intro u post e hpre hu
      simp only [List.nil_append, continueLoop, hu]
    | cons v vs ih =>
      intro u post e hpre hu
      simp only [List.cons_append, continueLoop]
      cases hv : spend_dag_build_from store v with
      | ok sub_dag =>
        simp only [continueLoop, hv] at hpre ⊢
        exact ih (dag.merge sub_dag) u post e hpre hu
      | error e2 =>
        simp only [continueLoop, hv] at hpre
        cases hpre

theorem claim_C10_witness :
    ((spend_dag_continue_from_utxos storeC1 dagC1 [11, 10]).1).containsAt 100 S0c = true
  ∧ spend_dag_continue_from_utxos storeC1 dagC1 [11, 10] =
      ((continueLoop storeC1 dagC1 [11]).1, .error .FailedToGetSpend) :=
  ⟨(claim_C10 storeC1 dagC1).1 [11, 10] 100 S0c (by decide),
   (claim_C10 storeC1 dagC1).2 [11] 10 [] .FailedToGetSpend (by decide) (by decide)⟩
